import Mathlib

/-!
# dfence: policy compilation and result aggregation

A shallow embedding of `internal/constraints.go` (the constraint compiler) and of the
collector loop of `check` in `cmd/dfence.go`, followed by the properties established
about them.

Conventions of the embedding:

* a Go `string` is a Lean `String`; the separator `" "` is the single byte `0x20`, which in
  UTF-8 never occurs inside a multi-byte sequence, so cutting at the character `' '` is
  cutting at the byte;
* a Go slice is a `List` (a nil slice and an empty slice are both `[]`; the sources only
  append to, range over and take the length of slices);
* a Go `map[string]T` is a `GoMap T`: a list of entries with pairwise distinct keys;
* a Go `int` counter is a `Nat` (the counter of `check` counts values held in memory and
  cannot reach `2^63`).
-/

namespace Dfence

/-! ## Fragments of the Go runtime and standard library used by the sources -/

/-- Cuts a character sequence at every occurrence of `sep`; the pieces are returned in
order, without the separators. There is always at least one piece. -/
def splitChars (sep : Char) : List Char → List (List Char)
  | [] => [[]]
  | c :: cs =>
    if c = sep then [] :: splitChars sep cs
    else
      match splitChars sep cs with
      | [] => [[c]]
      | piece :: pieces => (c :: piece) :: pieces

/-- Go's `strings.Split(s, sep)` for a separator made of one character. -/
def stringsSplit (s : String) (sep : Char) : List String :=
  (splitChars sep s.data).map String.mk

/-- A value of Go type `interface{}` as produced by decoding a JSON document: a string, or
a value of some other dynamic type. -/
inductive GoValue where
  | str (s : String)
  | bool (b : Bool)
  | number (n : Int)
  | nil
  | composite
  deriving DecidableEq, Repr

/-- The two-result type assertion `s, ok := v.(string)`: the string and `true` when the
dynamic type is `string`, the zero value `""` and `false` otherwise. -/
def GoValue.assertString : GoValue → String × Bool
  | GoValue.str s => (s, true)
  | _ => ("", false)

/-- A Go `map[string]α`: finitely many entries, no key bound twice. -/
structure GoMap (α : Type) where
  entries : List (String × α)
  distinct : (entries.map Prod.fst).Nodup

namespace GoMap

variable {α : Type}

/-- The map literal `map[string]α{}`. -/
def empty : GoMap α := ⟨[], List.nodup_nil⟩

/-- The two-result lookup `v, ok := m[k]`, as an option. -/
def get (m : GoMap α) (k : String) : Option α := m.entries.lookup k

/-- The index expression `m[k]` on a map of slices: the zero value (the nil slice) when
the key is absent. -/
def index {β : Type} (m : GoMap (List β)) (k : String) : List β := (m.get k).getD []

/-- The keys of the map. -/
def keys (m : GoMap α) : List String := m.entries.map Prod.fst

/-- The assignment `m[k] = v`: the binding of `k`, if any, is replaced. -/
def set (m : GoMap α) (k : String) (v : α) : GoMap α :=
  { entries := (k, v) :: m.entries.filter (fun e => e.1 != k)
    distinct := by
      rw [List.map_cons, List.nodup_cons]
      refine ⟨?_, ?_⟩
      · intro hk
        obtain ⟨e, he, hek⟩ := List.mem_map.mp hk
        have h2 := (List.mem_filter.mp he).2
        simp at h2
        exact h2 hek
      · exact m.distinct.sublist (List.filter_sublist m.entries |>.map Prod.fst) }

end GoMap

/-! ## internal/constraints.go -/

/-- The constant `patternSeparator = " "`: a string of exactly one character. -/
def patternSeparator : Char := ' '

/-- The type `constraintKind`, a named string type. -/
abbrev constraintKind := String

/-- Allow is a rule kind that enumerates accepted dependencies. -/
def Allow : constraintKind := "allow"

/-- Forbid is a rule kind that enumerates forbidden dependencies. -/
def Forbid : constraintKind := "forbid"

/-- The type `errorLevel`, a named string type. -/
abbrev errorLevel := String

/-- Error error level. -/
def Error : errorLevel := "error"

/-- Warn error level. -/
def Warn : errorLevel := "warn"

/-- Constraint represents the set of dependency constraints to enforce on a set of
modules. -/
structure Constraint where
  Scope : String
  Kind : constraintKind
  Deps : String
  OnBreak : errorLevel
  deriving DecidableEq, Repr

/-- Policy represents the set of dependency constraints to enforce. -/
structure Policy where
  Components : GoMap GoValue
  Constraints : List Constraint

/-- The struct `canonicalConstraint`; its zero value has nil slices and empty strings. -/
structure canonicalConstraint where
  modulePatterns : List String := []
  kind : constraintKind := ""
  targetPatterns : List String := []
  onBreak : errorLevel := ""
  deriving DecidableEq, Repr

/-- The function `extractComponentsPatterns`: ranges over the components and binds every
key to the pieces of its value, the value being read through a type assertion whose `ok`
result is discarded. -/
def extractComponentsPatterns (mods : GoMap GoValue) : GoMap (List String) :=
  mods.entries.foldl
    (fun r kv =>
      let patterns := (GoValue.assertString kv.2).1
      r.set kv.1 (stringsSplit patterns patternSeparator))
    GoMap.empty

/-- The function `BuildCanonicalConstraints`: one canonical constraint per constraint of
the policy, appended in order. -/
def BuildCanonicalConstraints (p : Policy) : List canonicalConstraint :=
  let modulePatterns := extractComponentsPatterns p.Components
  p.Constraints.foldl
    (fun r c =>
      let newConstraint : canonicalConstraint := {}
      let newConstraint := (stringsSplit c.Scope patternSeparator).foldl
        (fun nc m => { nc with modulePatterns := nc.modulePatterns ++ modulePatterns.index m })
        newConstraint
      let newConstraint := { newConstraint with kind := c.Kind }
      let newConstraint := (stringsSplit c.Deps patternSeparator).foldl
        (fun nc t => { nc with targetPatterns := nc.targetPatterns ++ modulePatterns.index t })
        newConstraint
      let newConstraint := { newConstraint with onBreak := c.OnBreak }
      r ++ [newConstraint])
    []

/-- The function `buildRegExprs`, over the library function `regexp.Compile` given as
`compile` (`none` when the pattern is rejected): every piece goes through
`regexp.MustCompile`, which panics on a rejected pattern. The result is `none` when the
function panics. -/
def buildRegExprs {Regexp : Type} (compile : String → Option Regexp) (src : String) :
    Option (List Regexp) :=
  (stringsSplit src patternSeparator).foldl
    (fun rExprs p =>
      match rExprs with
      | none => none
      | some acc =>
        match compile p with
        | none => none
        | some re => some (acc ++ [re]))
    (some [])

/-! ## cmd/dfence.go: the collector of `check` -/

/-- Modelled from the spec: the type `policy.CheckResult`, declared in a package whose
source is not available. The spec describes it as two ordered sequences of findings,
and `check` reads its fields `Warns` and `Errs`, of which it uses the length and the
`Error()` text of every element; a finding is represented by that text. -/
structure CheckResult where
  Warns : List String
  Errs : List String
  deriving DecidableEq, Repr

/-- The methods of `infra.Logger` that `check` calls. -/
inductive logLevel where
  | info
  | warning
  | error
  deriving DecidableEq, Repr

/-- One call of a logger method: the method and the format string it is given. -/
structure logCall where
  level : logLevel
  format : String
  deriving DecidableEq, Repr

/-- The state of the collector: the local `errCount`, the results still to be delivered
by the channel `out` in arrival order, and the logger calls made so far. -/
structure collectorState where
  errCount : Nat
  out : List CheckResult
  log : List logCall
  deriving DecidableEq, Repr

/-- One iteration of the loop `for i := 0; i < pkgCount; i++`, on the received result. -/
def collectOne (st : collectorState) (result : CheckResult) (rest : List CheckResult) :
    collectorState :=
  let log := result.Warns.foldl (fun log w => log ++ [logCall.mk logLevel.warning w]) st.log
  let log := result.Errs.foldl (fun log e => log ++ [logCall.mk logLevel.error e]) log
  { errCount := st.errCount + result.Errs.length, out := rest, log := log }

/-- The loop `for i := 0; i < pkgCount; i++ { result := <-out; ... }` with `n` iterations
left. A receive on a channel that delivers nothing more never returns: `none`. -/
def collect : Nat → collectorState → Option collectorState
  | 0, st => some st
  | n + 1, st =>
    match st.out with
    | [] => none
    | result :: rest => collect n (collectOne st result rest)

/-- What `check` leaves behind when it returns: the final `errCount`, the returned `error`
(`none` for nil, otherwise its text) and the logger calls, in order. -/
structure checkOutcome where
  errCount : Nat
  err : Option String
  log : List logCall
  deriving DecidableEq, Repr

/-- The function `check` from `pkgCount := len(pkgs)` on: `arrivals` are the results the
channel delivers, in arrival order (every `CheckPkg` task sends its result on the
channel). The result is `none` when `check` never returns. -/
def check (pkgCount : Nat) (arrivals : List CheckResult) : Option checkOutcome :=
  let st : collectorState :=
    { errCount := 0, out := arrivals, log := [logCall.mk logLevel.info "Checking..."] }
  match collect pkgCount st with
  | none => none
  | some st =>
    let log := st.log ++ [logCall.mk logLevel.info "Check done"]
    if st.errCount > 0 then
      some { errCount := st.errCount
             err := some ("found " ++ toString st.errCount ++ " error(s)")
             log := log }
    else
      some { errCount := st.errCount, err := none, log := log }

/-! ## The operations as the specification words them -/

/-- The operation `resolve(name)` of the Component Registry in the words of the
specification: the raw pattern string bound to the name, cut at the separator, and the
empty pattern set when the name is not in the mapping. The raw string of a component is
the one the type assertion of the compiler reads. -/
def resolve (components : GoMap GoValue) (name : String) : List String :=
  match components.get name with
  | some v => stringsSplit (GoValue.assertString v).1 patternSeparator
  | none => []

/-- The canonical constraint the compiler builds for one constraint, in closed form. -/
def compiled (components : GoMap GoValue) (c : Constraint) : canonicalConstraint :=
  { modulePatterns := (stringsSplit c.Scope patternSeparator).flatMap (resolve components)
    kind := c.Kind
    targetPatterns := (stringsSplit c.Deps patternSeparator).flatMap (resolve components)
    onBreak := c.OnBreak }

/-- The constraint with `Scope` and `Deps` exchanged. -/
def Constraint.swap (c : Constraint) : Constraint :=
  { Scope := c.Deps, Kind := c.Kind, Deps := c.Scope, OnBreak := c.OnBreak }

/-- The canonical constraint with `modulePatterns` and `targetPatterns` exchanged. -/
def canonicalConstraint.swap (cc : canonicalConstraint) : canonicalConstraint :=
  { modulePatterns := cc.targetPatterns, kind := cc.kind,
    targetPatterns := cc.modulePatterns, onBreak := cc.onBreak }

/-- The total error count in the words of the specification: the sum of `len(Errs)` over
the per-module results. -/
def totalErrors (results : List CheckResult) : Nat :=
  (results.map (fun r => r.Errs.length)).sum

/-- The logger calls the collector makes for a sequence of results: for each result in
turn, one warning call per element of `Warns`, then one error call per element of
`Errs`. -/
def emitted (results : List CheckResult) : List logCall :=
  results.flatMap (fun r =>
    r.Warns.map (logCall.mk logLevel.warning) ++ r.Errs.map (logCall.mk logLevel.error))

/-! ## Sample inputs -/

/-- The policy of the specification's scenario, with a second pattern for `api` and a
constraint that names `api` on both sides. -/
def layeredPolicy : Policy :=
  { Components :=
      ⟨[("api", GoValue.str "^api/ ^rest/"), ("db", GoValue.str "^db/")], by decide⟩
    Constraints := [⟨"api", Forbid, "db api", Error⟩, ⟨"db", Allow, "db", Warn⟩] }

/-- A policy whose only constraint names components that are not declared. -/
def ghostPolicy : Policy :=
  { Components := ⟨[("api", GoValue.str "^api/")], by decide⟩
    Constraints := [⟨"ghost phantom", Forbid, "ghost", Error⟩] }

/-- A policy whose component `a` holds the pattern `(`, which `regexp.Compile` rejects
(missing closing parenthesis). -/
def unbalancedPolicy : Policy :=
  { Components := ⟨[("a", GoValue.str "(")], by decide⟩
    Constraints := [⟨"a", Forbid, "a", Error⟩] }

/-- A policy whose component `n` is bound to a number and whose component `e` is bound to
the empty string. -/
def untypedPolicy : Policy :=
  { Components := ⟨[("n", GoValue.number 3), ("e", GoValue.str "")], by decide⟩
    Constraints := [⟨"n", Forbid, "e", Error⟩] }

/-! ## Supporting lemmas: splitting -/

theorem splitChars_ne_nil (sep : Char) (l : List Char) : splitChars sep l ≠ [] := by
  cases l with
  | nil => simp [splitChars]
  | cons c cs =>
    by_cases h : c = sep
    · simp [splitChars, h]
    · cases hs : splitChars sep cs <;> simp [splitChars, h, hs]

theorem splitChars_length (sep : Char) (l : List Char) :
    (splitChars sep l).length = l.count sep + 1 := by
  induction l with
  | nil => simp [splitChars]
  | cons c cs ih =>
    by_cases h : c = sep
    · simp [splitChars, h, ih]
    · cases hs : splitChars sep cs with
      | nil => exact absurd hs (splitChars_ne_nil sep cs)
      | cons piece pieces =>
        rw [hs] at ih
        simp [splitChars, h, hs, List.count_cons] at ih ⊢
        exact ih

theorem splitChars_sep_not_mem (sep : Char) (l : List Char) :
    ∀ piece ∈ splitChars sep l, sep ∉ piece := by
  induction l with
  | nil => simp [splitChars]
  | cons c cs ih =>
    by_cases h : c = sep
    · intro piece hp
      simp only [splitChars, h, if_true, List.mem_cons] at hp
      rcases hp with rfl | hp
      · simp
      · exact ih piece hp
    · cases hs : splitChars sep cs with
      | nil => exact absurd hs (splitChars_ne_nil sep cs)
      | cons first pieces =>
        rw [hs] at ih
        intro piece hp
        simp only [splitChars, h, if_false, hs, List.mem_cons] at hp
        rcases hp with rfl | hp
        · intro hmem
          rcases List.mem_cons.mp hmem with heq | hmem
          · exact h heq.symm
          · exact ih first (List.mem_cons_self _ _) hmem
        · exact ih piece (List.mem_cons_of_mem _ hp)

/-- Gluing the pieces back together with the separator gives the sequence that was cut:
with `splitChars_sep_not_mem` this determines the pieces. -/
theorem splitChars_intercalate (sep : Char) (l : List Char) :
    List.intercalate [sep] (splitChars sep l) = l := by
  induction l with
  | nil => simp [splitChars, List.intercalate]
  | cons c cs ih =>
    by_cases h : c = sep
    · cases hs : splitChars sep cs with
      | nil => exact absurd hs (splitChars_ne_nil sep cs)
      | cons first pieces =>
        rw [hs] at ih
        simp [splitChars, h, hs, List.intercalate] at ih ⊢
        exact ih
    · cases hs : splitChars sep cs with
      | nil => exact absurd hs (splitChars_ne_nil sep cs)
      | cons first pieces =>
        rw [hs] at ih
        cases pieces with
        | nil =>
          simp [splitChars, h, hs, List.intercalate] at ih ⊢
          exact ih
        | cons second others =>
          simp [splitChars, h, hs, List.intercalate] at ih ⊢
          exact ih

theorem stringsSplit_length (s : String) (sep : Char) :
    (stringsSplit s sep).length = s.data.count sep + 1 := by
  simp [stringsSplit, splitChars_length]

theorem stringsSplit_sep_not_mem (s : String) (sep : Char) :
    ∀ t ∈ stringsSplit s sep, sep ∉ t.data := by
  intro t ht
  obtain ⟨piece, hp, rfl⟩ := List.mem_map.mp ht
  exact splitChars_sep_not_mem sep s.data piece hp

theorem stringsSplit_empty (sep : Char) : stringsSplit "" sep = [""] := by
  simp [stringsSplit, splitChars]

/-! ## Supporting lemmas: maps -/

namespace GoMap

variable {α β : Type}

theorem lookup_filter_ne (es : List (String × α)) (k k' : String) (h : k' ≠ k) :
    (es.filter (fun e => e.1 != k)).lookup k' = es.lookup k' := by
  induction es with
  | nil => rfl
  | cons e es ih =>
    obtain ⟨a, b⟩ := e
    by_cases ha : a = k
    · subst ha
      have hne : (k' == a) = false := by simpa using h
      simp [List.filter_cons, List.lookup_cons, hne, ih]
    · have hne : (a != k) = true := by simpa using ha
      simp [List.filter_cons, List.lookup_cons, hne, ih]

theorem get_empty (k : String) : (empty : GoMap α).get k = none := rfl

theorem get_set (m : GoMap α) (k : String) (v : α) (k' : String) :
    (m.set k v).get k' = if k' = k then some v else m.get k' := by
  by_cases h : k' = k
  · subst h
    simp [get, set, List.lookup_cons]
  · have hne : (k' == k) = false := by simpa using h
    simp [get, set, List.lookup_cons, hne, h, lookup_filter_ne _ _ _ h]

theorem get_eq_none_iff (m : GoMap α) (k : String) : m.get k = none ↔ k ∉ m.keys := by
  unfold get keys
  rw [List.lookup_eq_none_iff]
  constructor
  · intro h hk
    obtain ⟨p, hp, rfl⟩ := List.mem_map.mp hk
    have := h p hp
    simp at this
  · intro h p hp
    have hne : k ≠ p.1 := by
      intro e
      apply h
      rw [e]
      exact List.mem_map_of_mem Prod.fst hp
    simpa using hne

theorem index_of_not_mem (m : GoMap (List β)) (k : String) (h : k ∉ m.keys) :
    m.index k = [] := by
  simp [index, (get_eq_none_iff m k).mpr h]

/-- Ranging over entries with distinct keys and assigning `r[k] = f v` for each binds every
key of the entries to the image of its value and leaves the other keys of `r` alone. -/
theorem foldl_set_get (f : α → β) (es : List (String × α)) (h : (es.map Prod.fst).Nodup)
    (r : GoMap β) (k : String) :
    (es.foldl (fun r kv => r.set kv.1 (f kv.2)) r).get k
      = (es.lookup k).elim (r.get k) (fun v => some (f v)) := by
  induction es generalizing r with
  | nil => rfl
  | cons e es ih =>
    obtain ⟨a, b⟩ := e
    rw [List.map_cons, List.nodup_cons] at h
    rw [List.foldl_cons, ih h.2]
    by_cases hk : k = a
    · subst hk
      have hnone : es.lookup k = none := by
        rw [List.lookup_eq_none_iff]
        intro p hp
        have hpk : k ≠ p.1 := by
          intro e
          apply h.1
          show k ∈ List.map Prod.fst es
          rw [e]
          exact List.mem_map_of_mem Prod.fst hp
        simpa using hpk
      simp [hnone, get_set, List.lookup_cons]
    · have hne : (k == a) = false := by simpa using hk
      simp [get_set, hk, List.lookup_cons, hne]

end GoMap

/-! ## Supporting lemmas: the constraint compiler -/

theorem extractComponentsPatterns_get (mods : GoMap GoValue) (k : String) :
    (extractComponentsPatterns mods).get k
      = (mods.get k).map (fun v => stringsSplit (GoValue.assertString v).1 patternSeparator) := by
  unfold extractComponentsPatterns
  rw [GoMap.foldl_set_get
    (fun v => stringsSplit (GoValue.assertString v).1 patternSeparator) mods.entries
    mods.distinct GoMap.empty k]
  unfold GoMap.get
  cases mods.entries.lookup k <;> rfl

theorem extractComponentsPatterns_index (mods : GoMap GoValue) (k : String) :
    (extractComponentsPatterns mods).index k = resolve mods k := by
  unfold GoMap.index resolve
  rw [extractComponentsPatterns_get]
  cases mods.get k <;> rfl

theorem foldl_snoc_eq_map {γ δ : Type} (g : γ → δ) (l : List γ) (acc : List δ) :
    l.foldl (fun r c => r ++ [g c]) acc = acc ++ l.map g := by
  induction l generalizing acc with
  | nil => simp
  | cons c l ih => simp [ih]

theorem foldl_modulePatterns (g : String → List String) (toks : List String)
    (nc : canonicalConstraint) :
    toks.foldl (fun nc m => { nc with modulePatterns := nc.modulePatterns ++ g m }) nc
      = { nc with modulePatterns := nc.modulePatterns ++ toks.flatMap g } := by
  induction toks generalizing nc with
  | nil => cases nc; simp
  | cons t toks ih => simp [ih, List.flatMap_cons]

theorem foldl_targetPatterns (g : String → List String) (toks : List String)
    (nc : canonicalConstraint) :
    toks.foldl (fun nc t => { nc with targetPatterns := nc.targetPatterns ++ g t }) nc
      = { nc with targetPatterns := nc.targetPatterns ++ toks.flatMap g } := by
  induction toks generalizing nc with
  | nil => cases nc; simp
  | cons t toks ih => simp [ih, List.flatMap_cons]

theorem BuildCanonicalConstraints_eq_map (p : Policy) :
    BuildCanonicalConstraints p = p.Constraints.map (compiled p.Components) := by
  unfold BuildCanonicalConstraints
  simp only [foldl_modulePatterns, foldl_targetPatterns]
  rw [foldl_snoc_eq_map
    (fun c : Constraint =>
      ({ modulePatterns :=
            [] ++ (stringsSplit c.Scope patternSeparator).flatMap
              (extractComponentsPatterns p.Components).index
         kind := c.Kind
         targetPatterns :=
            [] ++ (stringsSplit c.Deps patternSeparator).flatMap
              (extractComponentsPatterns p.Components).index
         onBreak := c.OnBreak } : canonicalConstraint))]
  simp only [List.nil_append]
  apply List.map_congr_left
  intro c _
  have hidx : (extractComponentsPatterns p.Components).index = resolve p.Components :=
    funext (extractComponentsPatterns_index p.Components)
  simp [compiled, hidx]

theorem BuildCanonicalConstraints_getElem? (p : Policy) (i : Nat) :
    (BuildCanonicalConstraints p)[i]? = (p.Constraints[i]?).map (compiled p.Components) := by
  rw [BuildCanonicalConstraints_eq_map, List.getElem?_map]

theorem mem_resolve (components : GoMap GoValue) (tok pat : String)
    (h : pat ∈ resolve components tok) :
    ∃ v, components.get tok = some v ∧
      pat ∈ stringsSplit (GoValue.assertString v).1 patternSeparator := by
  unfold resolve at h
  cases hv : components.get tok with
  | none => simp [hv] at h
  | some v => exact ⟨v, rfl, by simpa [hv] using h⟩

theorem resolve_of_get (components : GoMap GoValue) (k : String) (v : GoValue)
    (h : components.get k = some v) :
    resolve components k = stringsSplit (GoValue.assertString v).1 patternSeparator := by
  simp [resolve, h]

theorem buildRegExprs_foldl_none {Regexp : Type} (compile : String → Option Regexp)
    (toks : List String) :
    toks.foldl
      (fun rExprs p =>
        match rExprs with
        | none => none
        | some acc =>
          match compile p with
          | none => none
          | some re => some (acc ++ [re]))
      (none : Option (List Regexp)) = none := by
  induction toks with
  | nil => rfl
  | cons t toks ih => simpa using ih

theorem buildRegExprs_foldl_eq_none_iff {Regexp : Type} (compile : String → Option Regexp)
    (toks : List String) (acc : List Regexp) :
    toks.foldl
      (fun rExprs p =>
        match rExprs with
        | none => none
        | some acc =>
          match compile p with
          | none => none
          | some re => some (acc ++ [re]))
      (some acc) = none ↔ ∃ piece ∈ toks, compile piece = none := by
  induction toks generalizing acc with
  | nil => simp
  | cons t toks ih =>
    rw [List.foldl_cons]
    cases ht : compile t with
    | none =>
      simp only [ht]
      rw [buildRegExprs_foldl_none]
      simp [ht]
    | some re =>
      simp only [ht]
      rw [ih]
      simp [ht]

/-! ## The constraint compiler: properties -/

/-- C1: for every policy, `BuildCanonicalConstraints` returns exactly as many canonical
constraints as the policy has constraints, and at every index the canonical constraint
carries the `Kind` and the `OnBreak` of the constraint at that index, unchanged. -/
theorem BuildCanonicalConstraints_length_kind_onBreak (p : Policy) :
    (BuildCanonicalConstraints p).length = p.Constraints.length ∧
    ∀ i : Nat,
      ((BuildCanonicalConstraints p)[i]?).map (fun cc => (cc.kind, cc.onBreak))
        = (p.Constraints[i]?).map (fun c => (c.Kind, c.OnBreak)) := by
  refine ⟨by simp [BuildCanonicalConstraints_eq_map], fun i => ?_⟩
  rw [BuildCanonicalConstraints_getElem?]
  cases p.Constraints[i]? <;> simp [compiled]

/-- C2: for every policy and every index, the scope patterns of the canonical constraint
at that index are the concatenation, in token order, of the pattern lists the registry
resolves for the tokens obtained by cutting `Scope` at the separator; nothing is
reordered and nothing is removed, so a component named twice contributes twice. -/
theorem BuildCanonicalConstraints_modulePatterns (p : Policy) (i : Nat) :
    ((BuildCanonicalConstraints p)[i]?).map (fun cc => cc.modulePatterns)
      = (p.Constraints[i]?).map (fun c =>
          ((stringsSplit c.Scope patternSeparator).map (resolve p.Components)).flatten) := by
  rw [BuildCanonicalConstraints_getElem?]
  cases p.Constraints[i]? <;> simp [compiled, List.flatMap]

/-- C3: `Deps` is compiled by the same procedure as `Scope`: exchanging `Scope` and `Deps`
in every constraint exchanges `modulePatterns` and `targetPatterns` in every canonical
constraint, and the target patterns obtained for `Deps = s` are the scope patterns obtained
for `Scope = s` under the same components. -/
theorem BuildCanonicalConstraints_swap (p : Policy) :
    BuildCanonicalConstraints { p with Constraints := p.Constraints.map Constraint.swap }
      = (BuildCanonicalConstraints p).map canonicalConstraint.swap ∧
    ∀ (s : String) (c d : Constraint),
      (BuildCanonicalConstraints { p with Constraints := [{ c with Deps := s }] }).map
          (fun cc => cc.targetPatterns)
        = (BuildCanonicalConstraints { p with Constraints := [{ d with Scope := s }] }).map
          (fun cc => cc.modulePatterns) := by
  refine ⟨?_, fun s c d => ?_⟩
  · simp only [BuildCanonicalConstraints_eq_map, List.map_map]
    apply List.map_congr_left
    intro c _
    simp [compiled, Constraint.swap, canonicalConstraint.swap]
  · simp [BuildCanonicalConstraints_eq_map, compiled]

/-- C5: a token that is not a key of the components resolves to no pattern and the
compilation goes on: it contributes nothing, and a constraint all of whose `Scope` tokens
are undeclared gets an empty scope-pattern list; likewise for `Deps` and the
target-pattern list. -/
theorem BuildCanonicalConstraints_undeclared (p : Policy) (i : Nat) (c : Constraint)
    (hc : p.Constraints[i]? = some c) :
    (∀ tok, tok ∉ p.Components.keys →
      (extractComponentsPatterns p.Components).index tok = []) ∧
    ((∀ tok ∈ stringsSplit c.Scope patternSeparator, tok ∉ p.Components.keys) →
      ((BuildCanonicalConstraints p)[i]?).map (fun cc => cc.modulePatterns) = some []) ∧
    ((∀ tok ∈ stringsSplit c.Deps patternSeparator, tok ∉ p.Components.keys) →
      ((BuildCanonicalConstraints p)[i]?).map (fun cc => cc.targetPatterns) = some []) := by
  have hres : ∀ tok, tok ∉ p.Components.keys → resolve p.Components tok = [] := by
    intro tok htok
    simp [resolve, (GoMap.get_eq_none_iff p.Components tok).mpr htok]
  refine ⟨?_, ?_, ?_⟩
  · intro tok htok
    rw [extractComponentsPatterns_index]
    exact hres tok htok
  · intro h
    rw [BuildCanonicalConstraints_getElem?, hc]
    simp only [Option.map_some', compiled, Option.some.injEq, List.flatMap_eq_nil_iff]
    exact fun tok htok => hres tok (h tok htok)
  · intro h
    rw [BuildCanonicalConstraints_getElem?, hc]
    simp only [Option.map_some', compiled, Option.some.injEq, List.flatMap_eq_nil_iff]
    exact fun tok htok => hres tok (h tok htok)

/-- Witness of C5 on `ghostPolicy`, whose constraint names only undeclared components. -/
theorem BuildCanonicalConstraints_undeclared_witness :
    ghostPolicy.Constraints[0]? = some ⟨"ghost phantom", Forbid, "ghost", Error⟩ ∧
    (∀ tok ∈ stringsSplit "ghost phantom" patternSeparator, tok ∉ ghostPolicy.Components.keys) ∧
    ((BuildCanonicalConstraints ghostPolicy)[0]?).map (fun cc => cc.modulePatterns) = some [] ∧
    ((BuildCanonicalConstraints ghostPolicy)[0]?).map (fun cc => cc.targetPatterns) = some [] :=
  ⟨rfl, by decide,
    (BuildCanonicalConstraints_undeclared ghostPolicy 0 ⟨"ghost phantom", Forbid, "ghost", Error⟩
      rfl).2.1 (by decide),
    (BuildCanonicalConstraints_undeclared ghostPolicy 0 ⟨"ghost phantom", Forbid, "ghost", Error⟩
      rfl).2.2 (by decide)⟩

/-- C8: the separator never occurs inside a pattern: every string among the scope
patterns and the target patterns of every canonical constraint that
`BuildCanonicalConstraints` returns is free of the space character. -/
theorem BuildCanonicalConstraints_no_separator (p : Policy) (cc : canonicalConstraint)
    (hcc : cc ∈ BuildCanonicalConstraints p) (pat : String)
    (hpat : pat ∈ cc.modulePatterns ∨ pat ∈ cc.targetPatterns) :
    patternSeparator ∉ pat.data := by
  rw [BuildCanonicalConstraints_eq_map] at hcc
  obtain ⟨c, _, rfl⟩ := List.mem_map.mp hcc
  have key : ∀ toks : List String, pat ∈ toks.flatMap (resolve p.Components) →
      patternSeparator ∉ pat.data := by
    intro toks h
    obtain ⟨tok, _, htok⟩ := List.mem_flatMap.mp h
    obtain ⟨v, _, hv⟩ := mem_resolve p.Components tok pat htok
    exact stringsSplit_sep_not_mem _ _ pat hv
  rcases hpat with h | h
  · exact key _ h
  · exact key _ h

/-- Witness of C8 on `layeredPolicy`: the pattern `^rest/` of its first canonical
constraint. -/
theorem BuildCanonicalConstraints_no_separator_witness :
    (⟨["^api/", "^rest/"], Forbid, ["^db/", "^api/", "^rest/"], Error⟩ : canonicalConstraint)
        ∈ BuildCanonicalConstraints layeredPolicy ∧
      patternSeparator ∉ "^rest/".data :=
  ⟨by decide,
    BuildCanonicalConstraints_no_separator layeredPolicy
      ⟨["^api/", "^rest/"], Forbid, ["^db/", "^api/", "^rest/"], Error⟩ (by decide)
      "^rest/" (Or.inl (by decide))⟩

/-- C10: a declared component never resolves to an empty pattern set: the registry binds
every key of the components to a list of (number of separators in its value) + 1 patterns,
the value being read as `""` when it is not a string; so a component whose value is not a
string, or is the empty string, resolves to the single pattern `""`, and the patterns of a
component are copied into every constraint whose `Scope` (or `Deps`) names it. -/
theorem extractComponentsPatterns_declared (p : Policy) (k : String) (v : GoValue)
    (hk : p.Components.get k = some v) :
    (extractComponentsPatterns p.Components).get k
        = some (stringsSplit (GoValue.assertString v).1 patternSeparator) ∧
    ((extractComponentsPatterns p.Components).index k).length
        = (GoValue.assertString v).1.data.count patternSeparator + 1 ∧
    1 ≤ ((extractComponentsPatterns p.Components).index k).length ∧
    (((GoValue.assertString v).2 = false ∨ v = GoValue.str "") →
      (extractComponentsPatterns p.Components).index k = [""]) ∧
    ∀ (i : Nat) (c : Constraint), p.Constraints[i]? = some c →
      (k ∈ stringsSplit c.Scope patternSeparator →
        ∃ cc, (BuildCanonicalConstraints p)[i]? = some cc ∧
          ∀ pat ∈ (extractComponentsPatterns p.Components).index k, pat ∈ cc.modulePatterns) ∧
      (k ∈ stringsSplit c.Deps patternSeparator →
        ∃ cc, (BuildCanonicalConstraints p)[i]? = some cc ∧
          ∀ pat ∈ (extractComponentsPatterns p.Components).index k,
            pat ∈ cc.targetPatterns) := by
  have hidx : (extractComponentsPatterns p.Components).index k
      = stringsSplit (GoValue.assertString v).1 patternSeparator := by
    rw [extractComponentsPatterns_index, resolve_of_get _ _ _ hk]
  refine ⟨?_, ?_, ?_, ?_, ?_⟩
  · rw [extractComponentsPatterns_get, hk]; rfl
  · rw [hidx, stringsSplit_length]
  · rw [hidx, stringsSplit_length]; omega
  · intro h
    rw [hidx]
    have hempty : (GoValue.assertString v).1 = "" := by
      rcases h with h | h
      · cases v <;> simp_all [GoValue.assertString]
      · subst h; rfl
    rw [hempty, stringsSplit_empty]
  · intro i c hc
    rw [BuildCanonicalConstraints_getElem?, hc, extractComponentsPatterns_index]
    refine ⟨fun hmem => ⟨compiled p.Components c, rfl, fun pat hpat => ?_⟩,
      fun hmem => ⟨compiled p.Components c, rfl, fun pat hpat => ?_⟩⟩
    · exact List.mem_flatMap.mpr ⟨k, hmem, hpat⟩
    · exact List.mem_flatMap.mpr ⟨k, hmem, hpat⟩

/-- Witness of C10 on `untypedPolicy`: the component `n`, bound to a number, resolves to
the single empty pattern. -/
theorem extractComponentsPatterns_declared_witness :
    untypedPolicy.Components.get "n" = some (GoValue.number 3) ∧
    (GoValue.assertString (GoValue.number 3)).2 = false ∧
    (extractComponentsPatterns untypedPolicy.Components).index "n" = [""] ∧
    untypedPolicy.Constraints[0]? = some ⟨"n", Forbid, "e", Error⟩ ∧
    "n" ∈ stringsSplit "n" patternSeparator ∧
    ∃ cc, (BuildCanonicalConstraints untypedPolicy)[0]? = some cc ∧
      ∀ pat ∈ (extractComponentsPatterns untypedPolicy.Components).index "n",
        pat ∈ cc.modulePatterns :=
  ⟨rfl, rfl,
    (extractComponentsPatterns_declared untypedPolicy "n" (GoValue.number 3) rfl).2.2.2.1
      (Or.inl rfl),
    rfl, by decide,
    ((extractComponentsPatterns_declared untypedPolicy "n" (GoValue.number 3) rfl).2.2.2.2
      0 ⟨"n", Forbid, "e", Error⟩ rfl).1 (by decide)⟩

/-- C6, refuted as stated: the policy `unbalancedPolicy` binds the component `a` to the
pattern `(`, a piece on which `buildRegExprs` panics as soon as `regexp.Compile` rejects
it, and `BuildCanonicalConstraints` returns a canonical constraint list for it all the
same, with the piece among the patterns. -/
theorem BuildCanonicalConstraints_unbalanced :
    unbalancedPolicy.Components.get "a" = some (GoValue.str "(") ∧
    "(" ∈ stringsSplit "(" patternSeparator ∧
    (∀ compile : String → Option Unit, compile "(" = none → buildRegExprs compile "(" = none) ∧
    BuildCanonicalConstraints unbalancedPolicy = [⟨["("], Forbid, ["("], Error⟩] := by
  refine ⟨rfl, by decide, ?_, by decide⟩
  intro compile h
  unfold buildRegExprs
  rw [buildRegExprs_foldl_eq_none_iff]
  exact ⟨"(", by decide, h⟩

/-- C6, amended: `BuildCanonicalConstraints` compiles no pattern and has no failing path:
whatever `regexp.Compile` accepts, every policy gets its canonical constraints, one per
constraint, and every pattern in them is a piece of the value of a declared component,
taken as it stands. A pattern-compile failure arises in `buildRegExprs`, which panics
exactly when `regexp.Compile` rejects one of the space-separated pieces of the string it is
given. -/
theorem buildRegExprs_panics_iff {Regexp : Type} (compile : String → Option Regexp)
    (p : Policy) :
    (∀ src : String, buildRegExprs compile src = none ↔
      ∃ piece ∈ stringsSplit src patternSeparator, compile piece = none) ∧
    (BuildCanonicalConstraints p).length = p.Constraints.length ∧
    ∀ cc ∈ BuildCanonicalConstraints p, ∀ pat ∈ cc.modulePatterns ++ cc.targetPatterns,
      ∃ k v, p.Components.get k = some v ∧
        pat ∈ stringsSplit (GoValue.assertString v).1 patternSeparator := by
  refine ⟨fun src => ?_, by simp [BuildCanonicalConstraints_eq_map], ?_⟩
  · unfold buildRegExprs
    exact buildRegExprs_foldl_eq_none_iff compile _ []
  · intro cc hcc pat hpat
    rw [BuildCanonicalConstraints_eq_map] at hcc
    obtain ⟨c, _, rfl⟩ := List.mem_map.mp hcc
    have key : ∀ toks : List String, pat ∈ toks.flatMap (resolve p.Components) →
        ∃ k v, p.Components.get k = some v ∧
          pat ∈ stringsSplit (GoValue.assertString v).1 patternSeparator := by
      intro toks h
      obtain ⟨tok, _, htok⟩ := List.mem_flatMap.mp h
      obtain ⟨v, hv, hmem⟩ := mem_resolve p.Components tok pat htok
      exact ⟨tok, v, hv, hmem⟩
    rcases List.mem_append.mp hpat with h | h
    · exact key _ h
    · exact key _ h

/-- Witness of the amended C6 on `unbalancedPolicy`, with a `regexp.Compile` that rejects
the pattern `(`. -/
theorem buildRegExprs_panics_iff_witness :
    buildRegExprs (fun s => if s = "(" then none else some s) "x (" = none ∧
    (BuildCanonicalConstraints unbalancedPolicy).length = 1 ∧
    (⟨["("], Forbid, ["("], Error⟩ : canonicalConstraint)
      ∈ BuildCanonicalConstraints unbalancedPolicy ∧
    ∃ k v, unbalancedPolicy.Components.get k = some v ∧
      "(" ∈ stringsSplit (GoValue.assertString v).1 patternSeparator :=
  ⟨((buildRegExprs_panics_iff (fun s => if s = "(" then none else some s)
      unbalancedPolicy).1 "x (").mpr ⟨"(", by decide, by decide⟩,
    (buildRegExprs_panics_iff (fun s => if s = "(" then (none : Option String) else some s)
      unbalancedPolicy).2.1,
    by decide,
    (buildRegExprs_panics_iff (fun s => if s = "(" then (none : Option String) else some s)
      unbalancedPolicy).2.2 ⟨["("], Forbid, ["("], Error⟩ (by decide) "(" (by decide)⟩

/-! ## Supporting lemmas: the collector -/

theorem collectOne_eq (st : collectorState) (result : CheckResult) (rest : List CheckResult) :
    collectOne st result rest
      = { errCount := st.errCount + result.Errs.length
          out := rest
          log := st.log ++ emitted [result] } := by
  simp [collectOne, emitted, foldl_snoc_eq_map, List.append_assoc]

theorem emitted_cons (r : CheckResult) (rs : List CheckResult) :
    emitted (r :: rs) = emitted [r] ++ emitted rs := by
  simp [emitted]

theorem totalErrors_cons (r : CheckResult) (rs : List CheckResult) :
    totalErrors (r :: rs) = r.Errs.length + totalErrors rs := by
  simp [totalErrors]

/-- With as many iterations as results on the channel, the loop ends, having consumed every
result, added up every `len(Errs)` and made every logger call. -/
theorem collect_all (rs : List CheckResult) (errCount : Nat) (log : List logCall) :
    collect rs.length { errCount := errCount, out := rs, log := log }
      = some { errCount := errCount + totalErrors rs, out := [], log := log ++ emitted rs } := by
  induction rs generalizing errCount log with
  | nil => simp [collect, totalErrors, emitted]
  | cons r rs ih =>
    simp only [List.length_cons, collect, collectOne_eq]
    rw [ih, emitted_cons r rs, totalErrors_cons]
    simp [Nat.add_assoc, List.append_assoc]

/-- With more iterations than results on the channel, the loop never ends. -/
theorem collect_starved (rs : List CheckResult) (n : Nat) (hn : rs.length < n)
    (errCount : Nat) (log : List logCall) :
    collect n { errCount := errCount, out := rs, log := log } = none := by
  induction rs generalizing n errCount log with
  | nil =>
    cases n with
    | zero => simp at hn
    | succ n => simp [collect]
  | cons r rs ih =>
    cases n with
    | zero => simp at hn
    | succ n =>
      simp only [collect, collectOne_eq]
      exact ih n (by simpa using hn) _ _

theorem check_eq (rs : List CheckResult) :
    check rs.length rs
      = some { errCount := totalErrors rs
               err := if totalErrors rs > 0
                 then some ("found " ++ toString (totalErrors rs) ++ " error(s)") else none
               log := [logCall.mk logLevel.info "Checking..."] ++ emitted rs
                 ++ [logCall.mk logLevel.info "Check done"] } := by
  unfold check
  simp only [collect_all, Nat.zero_add]
  split_ifs <;> rfl

theorem totalErrors_eq_of_errs (rs rs' : List CheckResult)
    (h : rs'.map (fun r => r.Errs) = rs.map (fun r => r.Errs)) :
    totalErrors rs' = totalErrors rs := by
  have h2 := congrArg (fun l => (l.map List.length).sum) h
  simpa [totalErrors, List.map_map, Function.comp] using h2

theorem totalErrors_perm (rs rs' : List CheckResult) (h : rs.Perm rs') :
    totalErrors rs' = totalErrors rs := by
  unfold totalErrors
  exact ((h.map (fun r : CheckResult => r.Errs.length)).sum_eq).symm

theorem emitted_warnings (rs : List CheckResult) :
    ((emitted rs).filter (fun call => call.level = logLevel.warning)).map
      (fun call => call.format) = rs.flatMap (fun r => r.Warns) := by
  induction rs with
  | nil => rfl
  | cons r rs ih =>
    rw [emitted_cons, List.filter_append, List.map_append, ih, List.flatMap_cons]
    congr 1
    simp [emitted, List.filter_map, Function.comp_def]

theorem emitted_errors (rs : List CheckResult) :
    ((emitted rs).filter (fun call => call.level = logLevel.error)).map
      (fun call => call.format) = rs.flatMap (fun r => r.Errs) := by
  induction rs with
  | nil => rfl
  | cons r rs ih =>
    rw [emitted_cons, List.filter_append, List.map_append, ih, List.flatMap_cons]
    congr 1
    simp [emitted, List.filter_map, Function.comp_def]

/-! ## The collector: properties -/

/-- C4: the run fails exactly when the total error count is greater than zero: given one
result per package, `check` returns, and it returns a non-nil error exactly when the sum
of `len(Errs)` over the results is positive; the verdict does not depend on the warnings:
results with the same `Errs`, whatever their `Warns`, get the same returned error. -/
theorem check_fails_iff_errors (rs rs' : List CheckResult)
    (h : rs'.map (fun r => r.Errs) = rs.map (fun r => r.Errs)) :
    ∃ o o', check rs.length rs = some o ∧ check rs'.length rs' = some o' ∧
      (o.err ≠ none ↔ 0 < (rs.map (fun r => r.Errs.length)).sum) ∧ o'.err = o.err := by
  refine ⟨_, _, check_eq rs, check_eq rs', ?_, ?_⟩
  · show (if totalErrors rs > 0 then _ else none) ≠ none ↔ 0 < totalErrors rs
    split_ifs with hpos <;> simp [hpos]
  · simp only [totalErrors_eq_of_errs rs rs' h]

/-- Witness of C4: two runs with the same errors and different warnings. -/
theorem check_fails_iff_errors_witness :
    ([⟨[], ["e1", "e2"]⟩, ⟨["w2", "w3"], []⟩] : List CheckResult).map (fun r => r.Errs)
      = ([⟨["w1"], ["e1", "e2"]⟩, ⟨[], []⟩] : List CheckResult).map (fun r => r.Errs) ∧
    ∃ o o', check 2 [⟨["w1"], ["e1", "e2"]⟩, ⟨[], []⟩] = some o ∧
      check 2 [⟨[], ["e1", "e2"]⟩, ⟨["w2", "w3"], []⟩] = some o' ∧
      (o.err ≠ none ↔ 0 < 2) ∧ o'.err = o.err :=
  ⟨by decide,
    check_fails_iff_errors [⟨["w1"], ["e1", "e2"]⟩, ⟨[], []⟩]
      [⟨[], ["e1", "e2"]⟩, ⟨["w2", "w3"], []⟩] (by decide)⟩

/-- C7: the total error count that `check` computes is the sum of `len(Errs)` over the
results and does not depend on the order of arrival: for a sequence of results and any
permutation of it, `check` computes the same count and returns the same error, message
included. -/
theorem check_arrival_order (rs rs' : List CheckResult) (h : rs.Perm rs') :
    ∃ o o', check rs.length rs = some o ∧ check rs'.length rs' = some o' ∧
      o.errCount = (rs.map (fun r => r.Errs.length)).sum ∧
      o'.errCount = o.errCount ∧ o'.err = o.err ∧
      (0 < o.errCount → o.err = some ("found " ++ toString o.errCount ++ " error(s)")) := by
  refine ⟨_, _, check_eq rs, check_eq rs', rfl, totalErrors_perm rs rs' h, ?_, ?_⟩
  · simp only [totalErrors_perm rs rs' h]
  · intro hpos
    show (if totalErrors rs > 0 then _ else none) = _
    rw [if_pos hpos]

/-- Witness of C7: two results arriving in either order. -/
theorem check_arrival_order_witness :
    ([⟨["w1"], ["e1", "e2"]⟩, ⟨[], ["e3"]⟩] : List CheckResult).Perm
      [⟨[], ["e3"]⟩, ⟨["w1"], ["e1", "e2"]⟩] ∧
    ∃ o o', check 2 [⟨["w1"], ["e1", "e2"]⟩, ⟨[], ["e3"]⟩] = some o ∧
      check 2 [⟨[], ["e3"]⟩, ⟨["w1"], ["e1", "e2"]⟩] = some o' ∧
      o.errCount = 3 ∧ o'.errCount = o.errCount ∧ o'.err = o.err ∧
      (0 < o.errCount → o.err = some ("found " ++ toString o.errCount ++ " error(s)")) :=
  ⟨List.Perm.swap _ _ _,
    check_arrival_order [⟨["w1"], ["e1", "e2"]⟩, ⟨[], ["e3"]⟩]
      [⟨[], ["e3"]⟩, ⟨["w1"], ["e1", "e2"]⟩] (List.Perm.swap _ _ _)⟩

/-- C9: every finding is reported and none stops the run: given one result per package,
the loop of `check` consumes every result and `check` returns; the warning calls made on
the logger are, in order, the elements of the `Warns` lists and the error calls the
elements of the `Errs` lists, one call each, so the number of error calls is the final
error count. -/
theorem check_reports_every_finding (rs : List CheckResult) :
    ∃ st o,
      collect rs.length
        { errCount := 0, out := rs, log := [logCall.mk logLevel.info "Checking..."] } = some st ∧
      st.out = [] ∧
      check rs.length rs = some o ∧
      ((o.log.filter (fun call => call.level = logLevel.warning)).map (fun call => call.format)
        = rs.flatMap (fun r => r.Warns)) ∧
      ((o.log.filter (fun call => call.level = logLevel.error)).map (fun call => call.format)
        = rs.flatMap (fun r => r.Errs)) ∧
      (o.log.filter (fun call => call.level = logLevel.warning)).length
        = (rs.map (fun r => r.Warns.length)).sum ∧
      (o.log.filter (fun call => call.level = logLevel.error)).length = o.errCount := by
  have hw : ∀ o : checkOutcome, check rs.length rs = some o →
      (o.log.filter (fun call => call.level = logLevel.warning)).map (fun call => call.format)
        = rs.flatMap (fun r => r.Warns) := by
    intro o ho
    rw [check_eq] at ho
    cases ho
    simp [List.filter_append, emitted_warnings]
  have he : ∀ o : checkOutcome, check rs.length rs = some o →
      (o.log.filter (fun call => call.level = logLevel.error)).map (fun call => call.format)
        = rs.flatMap (fun r => r.Errs) := by
    intro o ho
    rw [check_eq] at ho
    cases ho
    simp [List.filter_append, emitted_errors]
  refine ⟨_, _, collect_all rs 0 _, rfl, check_eq rs, hw _ (check_eq rs), he _ (check_eq rs),
    ?_, ?_⟩
  · have := congrArg List.length (hw _ (check_eq rs))
    rw [List.length_map, List.length_flatMap] at this
    exact this
  · have := congrArg List.length (he _ (check_eq rs))
    rw [List.length_map, List.length_flatMap] at this
    exact this

end Dfence
